import Mathlib

/-!
Shallow embedding of the hybrid-search endpoint of `backend/main.py`
(founder-rag).  The endpoint `search` performs:

1. validation: `if not query: raise HTTPException(400, "Query cannot be empty.")`
   (`top_k` is never validated);
2. semantic search: Cohere embed + Qdrant lookup inside a `try`, any exception
   becomes `HTTPException(500, f"Vector search failed: {e}")`.  Both services
   are external collaborators; we model their combined outcome as a value of
   type `Except String (List Payload)` supplied as an input;
3. lexical search: `bm25.get_scores(query.split(" "))` from the third-party
   `rank_bm25` library (external to the claims; modelled as an arbitrary
   score function `String → List ℚ`), then
   `top_n_indices = bm25_scores.argsort()[-top_k:][::-1]` and a loop keeping
   only indices with `bm25_scores[idx] > 0`;
4. reciprocal-rank fusion: a dict `ranked_results` keyed by `payload['id']`,
   adding `1 / (i + 1)` per semantic hit and `0.5 / (i + 1)` per lexical hit;
5. `sorted(ranked_results.values(), key=lambda x: x["score"], reverse=True)`
   (Python's sort is stable: ties keep dict-insertion order), truncation
   `[:top_k]`, and either `{"results": ...}` or the sentinel
   `{"message": "No relevant results found."}`.

Python floats are modelled as exact rationals.  `numpy.argsort` (ascending) is
modelled as the stable ascending argsort, i.e. sorting indices by the
lexicographic key (score, index); Python's stable `sorted(..., reverse=True)`
is likewise modelled by the lexicographic key (score descending, position
ascending).  Python/numpy slice arithmetic on possibly non-positive bounds is
modelled exactly (`pySliceFrom`, `pySliceTo`).
-/

namespace FounderRag

/-- A corpus/result record (`df.iloc[idx].to_dict()` resp. a Qdrant point
payload).  The only field the engine inspects is `'id'`; the remaining
columns are carried opaquely. -/
structure Payload where
  id : String
  fields : List (String × String)
deriving DecidableEq, Repr

instance : Inhabited Payload := ⟨⟨"", []⟩⟩

/-- Python slice `l[start:]` for a possibly negative `start`
(negative indices count from the end, clamped at both ends). -/
def pySliceFrom {α : Type} (l : List α) (start : Int) : List α :=
  if start < 0 then l.drop ((l.length + start).toNat)
  else l.drop start.toNat

/-- Python slice `l[:stop]` for a possibly negative `stop`. -/
def pySliceTo {α : Type} (l : List α) (stop : Int) : List α :=
  if stop < 0 then l.take ((l.length + stop).toNat)
  else l.take stop.toNat

/-- Ascending comparison on index positions used to model
`bm25_scores.argsort()`: lexicographic on (score, index).  Sorting the
(pairwise distinct) indices by this total order is exactly the stable
ascending argsort. -/
def ascRel (scores : List ℚ) (i j : Nat) : Prop :=
  scores.getD i 0 < scores.getD j 0 ∨ (scores.getD i 0 = scores.getD j 0 ∧ i ≤ j)

instance (scores : List ℚ) : DecidableRel (ascRel scores) := fun i j =>
  inferInstanceAs (Decidable (_ ∨ _ ∧ _))

instance (scores : List ℚ) : IsTotal Nat (ascRel scores) :=
  ⟨fun i j => by
    unfold ascRel
    rcases lt_trichotomy (scores.getD i 0) (scores.getD j 0) with h | h | h
    · exact Or.inl (Or.inl h)
    · rcases Nat.le_total i j with hij | hij
      · exact Or.inl (Or.inr ⟨h, hij⟩)
      · exact Or.inr (Or.inr ⟨h.symm, hij⟩)
    · exact Or.inr (Or.inl h)⟩

instance (scores : List ℚ) : IsTrans Nat (ascRel scores) :=
  ⟨fun a b c hab hbc => by
    unfold ascRel at hab hbc ⊢
    rcases hab with h1 | ⟨e1, l1⟩
    · rcases hbc with h2 | ⟨e2, _⟩
      · exact Or.inl (h1.trans h2)
      · exact Or.inl (e2 ▸ h1)
    · rcases hbc with h2 | ⟨e2, l2⟩
      · exact Or.inl (e1 ▸ h2)
      · exact Or.inr ⟨e1.trans e2, l1.trans l2⟩⟩

/-- `bm25_scores.argsort()`: the indices `0, …, n-1` sorted by ascending
score (ties by index). -/
def argsortAsc (scores : List ℚ) : List Nat :=
  List.insertionSort (ascRel scores) (List.range scores.length)

/-- `top_n_indices = bm25_scores.argsort()[-top_k:][::-1]`. -/
def bm25TopIndices (scores : List ℚ) (top_k : Int) : List Nat :=
  (pySliceFrom (argsortAsc scores) (-top_k)).reverse

/-- One element appended to `bm25_results`:
`{"score": bm25_scores[idx], "payload": df.iloc[idx].to_dict()}`. -/
structure BM25Result where
  score : ℚ
  payload : Payload
deriving DecidableEq, Repr

/-- The `bm25_results` loop: walk `top_n_indices` in order, keep only
indices with `bm25_scores[idx] > 0`. -/
def bm25Results (df : List Payload) (scores : List ℚ) (top_k : Int) :
    List BM25Result :=
  (bm25TopIndices scores top_k).filterMap fun idx =>
    if 0 < scores.getD idx 0 then some ⟨scores.getD idx 0, df.getD idx default⟩
    else none

/-- One entry of the `ranked_results` dict: key, accumulated score, payload.
The accumulator is kept as a list in dict-insertion order (Python dicts
preserve insertion order). -/
structure RankedEntry where
  docId : String
  score : ℚ
  payload : Payload
deriving DecidableEq, Repr

/-- One loop iteration body:
`if doc_id not in ranked_results: ranked_results[doc_id] = {"score": 0, "payload": payload}`
followed by `ranked_results[doc_id]["score"] += w`.  An existing entry keeps
its payload and position; a new entry is appended at the end with score
`0 + w = w`. -/
def bumpScore : List RankedEntry → String → Payload → ℚ → List RankedEntry
  | [], d, p, w => [⟨d, w, p⟩]
  | e :: rest, d, p, w =>
    if e.docId = d then ⟨e.docId, e.score + w, e.payload⟩ :: rest
    else e :: bumpScore rest d p w

/-- One of the two `for i, result in enumerate(...)` fusion loops, adding
`w / (i + 1)` for the candidate at 0-based rank `i` (the semantic loop uses
`w = 1`, the lexical loop `w = 0.5`); the dict key is `payload['id']`. -/
def processSource (w : ℚ) (cands : List Payload) (acc : List RankedEntry) :
    List RankedEntry :=
  cands.enum.foldl (fun a ip => bumpScore a ip.2.id ip.2 (w / ((ip.1 : ℚ) + 1))) acc

/-- The full fusion stage: semantic candidates first (weight 1), then the
lexical candidates (weight 0.5), starting from the empty dict. -/
def rrfRank (vecResults lexPayloads : List Payload) : List RankedEntry :=
  processSource (1/2) lexPayloads (processSource 1 vecResults [])

/-- Comparison used to model
`sorted(ranked_results.values(), key=lambda x: x["score"], reverse=True)`:
Python's sort is stable and `reverse=True` keeps equal-key elements in their
original (dict-insertion) order, i.e. the result is sorted by the
lexicographic key (score descending, insertion position ascending). -/
def descRel (a b : Nat × RankedEntry) : Prop :=
  b.2.score < a.2.score ∨ (a.2.score = b.2.score ∧ a.1 ≤ b.1)

instance : DecidableRel descRel := fun a b =>
  inferInstanceAs (Decidable (_ ∨ _ ∧ _))

instance : IsTotal (Nat × RankedEntry) descRel :=
  ⟨fun a b => by
    unfold descRel
    rcases lt_trichotomy a.2.score b.2.score with h | h | h
    · exact Or.inr (Or.inl h)
    · rcases Nat.le_total a.1 b.1 with hij | hij
      · exact Or.inl (Or.inr ⟨h, hij⟩)
      · exact Or.inr (Or.inr ⟨h.symm, hij⟩)
    · exact Or.inl (Or.inl h)⟩

instance : IsTrans (Nat × RankedEntry) descRel :=
  ⟨fun a b c hab hbc => by
    unfold descRel at hab hbc ⊢
    rcases hab with h1 | ⟨e1, l1⟩
    · rcases hbc with h2 | ⟨e2, _⟩
      · exact Or.inl (h2.trans h1)
      · exact Or.inl (e2 ▸ h1)
    · rcases hbc with h2 | ⟨e2, l2⟩
      · exact Or.inl (e1 ▸ h2)
      · exact Or.inr ⟨e1.trans e2, l1.trans l2⟩⟩

/-- `sorted_results` with each entry tagged by its insertion position. -/
def fusedSortKeyed (acc : List RankedEntry) : List (Nat × RankedEntry) :=
  List.insertionSort descRel acc.enum

/-- `sorted_results = sorted(ranked_results.values(), key=..., reverse=True)`. -/
def fusedSorted (acc : List RankedEntry) : List RankedEntry :=
  (fusedSortKeyed acc).map (·.2)

/-- `final_results = [item["payload"] for item in sorted_results[:top_k]]`. -/
def finalResults (acc : List RankedEntry) (top_k : Int) : List Payload :=
  (pySliceTo (fusedSorted acc) top_k).map (·.payload)

/-- `raise HTTPException(status_code, detail)`. -/
structure HTTPError where
  status : Nat
  detail : String
deriving DecidableEq, Repr

/-- The two JSON shapes the endpoint returns on success:
`{"message": ...}` (the no-results sentinel) and `{"results": [...]}`. -/
inductive SearchResponse : Type
  | message (s : String)
  | results (l : List Payload)
deriving DecidableEq, Repr

/-- The `/search` endpoint.  `df` is the corpus dataframe rows, `getScores`
models `lambda q: bm25.get_scores(q.split(" "))` of the prebuilt external
BM25 model, `sem` the outcome of the Cohere-embed + Qdrant `try` block. -/
def search (df : List Payload) (getScores : String → List ℚ)
    (sem : Except String (List Payload)) (query : String) (top_k : Int) :
    Except HTTPError SearchResponse :=
  if query = "" then .error ⟨400, "Query cannot be empty."⟩
  else
    match sem with
    | .error e => .error ⟨500, "Vector search failed: " ++ e⟩
    | .ok vecResults =>
      let scores := getScores query
      let lexPayloads := (bm25Results df scores top_k).map (·.payload)
      let fin := finalResults (rrfRank vecResults lexPayloads) top_k
      if fin = [] then .ok (.message "No relevant results found.")
      else .ok (.results fin)

/-- Observer: the accumulated score of document `d` in the dict
(`0` when absent; entry keys are pairwise distinct, see `rrf_unique_ids`). -/
def accScore : List RankedEntry → String → ℚ
  | [], _ => 0
  | e :: rest, d => if e.docId = d then e.score else accScore rest d

/-- Observer: the payload stored for document `d` in the dict. -/
def accPayload : List RankedEntry → String → Option Payload
  | [], _ => none
  | e :: rest, d => if e.docId = d then some e.payload else accPayload rest d

/-- The total contribution of one source to document `d`:
`Σ w / (i + 1)` over the 0-based ranks `i` at which a candidate with id `d`
occurs in the source's list. -/
def sourceContrib (w : ℚ) (cands : List Payload) (d : String) : ℚ :=
  (cands.enum.map (fun ip => if ip.2.id = d then w / ((ip.1 : ℚ) + 1) else 0)).sum

/-- Modelled from the spec's words (§4.1 TopK), for comparison with the
code's `bm25Results`: sort documents by descending score with ties broken by
original corpus insertion order (stable sort), exclude scores ≤ 0, truncate
to `k`. -/
def specDescRel (scores : List ℚ) (i j : Nat) : Prop :=
  scores.getD j 0 < scores.getD i 0 ∨ (scores.getD i 0 = scores.getD j 0 ∧ i ≤ j)

instance (scores : List ℚ) : DecidableRel (specDescRel scores) := fun i j =>
  inferInstanceAs (Decidable (_ ∨ _ ∧ _))

/-- Modelled from the spec's words (§4.1): the lexical TopK the spec
describes. -/
def lexTopKSpec (df : List Payload) (scores : List ℚ) (k : Nat) :
    List BM25Result :=
  (((List.insertionSort (specDescRel scores) (List.range scores.length)).filter
      (fun i => decide (0 < scores.getD i 0))).take k).map
    (fun idx => ⟨scores.getD idx 0, df.getD idx default⟩)

/-- Sample payloads for concrete evaluations. -/
def pA : Payload := ⟨"A", []⟩

def pB : Payload := ⟨"B", []⟩

def pC : Payload := ⟨"C", []⟩

/-! ## Helper lemmas about the fusion accumulator -/

theorem accScore_bumpScore (acc : List RankedEntry) (d' : String) (p : Payload)
    (w : ℚ) (d : String) :
    accScore (bumpScore acc d' p w) d = accScore acc d + (if d' = d then w else 0) := by
  induction acc with
  | nil => by_cases h : d' = d <;> simp [h, bumpScore, accScore]
  | cons e rest ih =>
    simp only [bumpScore]
    by_cases he : e.docId = d'
    · rw [if_pos he]
      by_cases hd : e.docId = d
      · have hdd : d' = d := by rw [← he, hd]
        simp [accScore, hd, hdd]
      · have hdd : ¬ d' = d := fun h => hd (he.trans h)
        simp [accScore, hd, hdd]
    · rw [if_neg he]
      by_cases hd : e.docId = d
      · have hdd : ¬ d' = d := fun h => he (hd.trans h.symm)
        simp [accScore, hd, hdd]
      · simp [accScore, hd, ih]

theorem accScore_foldl (w : ℚ) (d : String) :
    ∀ (l : List (Nat × Payload)) (acc : List RankedEntry),
      accScore (l.foldl
          (fun a ip => bumpScore a ip.2.id ip.2 (w / ((ip.1 : ℚ) + 1))) acc) d
        = accScore acc d
          + (l.map (fun ip => if ip.2.id = d then w / ((ip.1 : ℚ) + 1) else 0)).sum
  | [], acc => by simp
  | ip :: l, acc => by
    simp only [List.foldl_cons, List.map_cons, List.sum_cons]
    rw [accScore_foldl w d l, accScore_bumpScore]
    by_cases h : ip.2.id = d <;> simp [h] <;> ring

theorem accScore_processSource (w : ℚ) (cands : List Payload)
    (acc : List RankedEntry) (d : String) :
    accScore (processSource w cands acc) d
      = accScore acc d + sourceContrib w cands d :=
  accScore_foldl w d cands.enum acc

/-- C1 -- The Rank Fusion Engine adds `weight / (i + 1)` per candidate at
0-based rank `i` (weight 1 for the semantic source, 0.5 for the lexical
source), a document in both sources receiving the sum; on semantic list
`[A@0, B@1]` and lexical list `[B@0, C@1]` the combined scores are
`A = 1`, `B = 1`, `C = 0.25`. -/
theorem rrf_fusion_math :
    (∀ (vec lex : List Payload) (d : String),
      accScore (rrfRank vec lex) d
        = sourceContrib 1 vec d + sourceContrib (1/2) lex d)
    ∧ accScore (rrfRank [pA, pB] [pB, pC]) "A" = 1
    ∧ accScore (rrfRank [pA, pB] [pB, pC]) "B" = 1
    ∧ accScore (rrfRank [pA, pB] [pB, pC]) "C" = 1/4 := by
  refine ⟨fun vec lex d => ?_, ?_, ?_, ?_⟩
  · unfold rrfRank
    rw [accScore_processSource, accScore_processSource]
    simp [accScore]
  · simp +decide [rrfRank, processSource, bumpScore, accScore, pA, pB, pC,
      List.enum, List.enumFrom]
  · simp +decide [rrfRank, processSource, bumpScore, accScore, pA, pB, pC,
      List.enum, List.enumFrom]
    all_goals norm_num
  · simp +decide [rrfRank, processSource, bumpScore, accScore, pA, pB, pC,
      List.enum, List.enumFrom]
    all_goals norm_num

theorem pySliceTo_nil {α : Type} (stop : Int) : pySliceTo ([] : List α) stop = [] := by
  unfold pySliceTo
  split <;> simp

theorem pySliceTo_zero {α : Type} (l : List α) : pySliceTo l 0 = [] := by
  unfold pySliceTo
  simp

theorem pySliceTo_of_nonneg {α : Type} (l : List α) (stop : Int) (h : 0 ≤ stop) :
    pySliceTo l stop = l.take stop.toNat := by
  unfold pySliceTo
  rw [if_neg (not_lt.mpr h)]

/-! ## Validation and error propagation (C2, C8) -/

/-- C2 counterexample -- a non-empty query with non-positive `top_k = 0` is
not rejected: the request flows through the collaborators and fusion and
produces the sentinel response, not the validation error. -/
theorem validation_topk_counterexample :
    search [] (fun _ => []) (.ok []) "x" 0
        = .ok (.message "No relevant results found.")
    ∧ search [] (fun _ => []) (.ok []) "x" 0
        ≠ .error ⟨400, "Query cannot be empty."⟩ := by
  have h : search [] (fun _ => []) (.ok []) "x" 0
      = .ok (.message "No relevant results found.") := rfl
  refine ⟨h, ?_⟩
  rw [h]
  simp

/-- C2 (amended) -- only the empty query text is rejected at the boundary:
an empty query yields the 400 validation error whatever the collaborator
outcome `sem` and whatever `top_k` (so the rejection precedes the
collaborators); a non-positive `top_k` is not validated. -/
theorem empty_query_rejected (df : List Payload) (getScores : String → List ℚ)
    (sem : Except String (List Payload)) (top_k : Int) :
    search df getScores sem "" top_k = .error ⟨400, "Query cannot be empty."⟩ := by
  simp [search]

/-- C8 -- whenever the embedding/vector-store block fails, the endpoint
returns the explicit 500 upstream-failure error (one uniform policy; it does
not degrade to lexical-only results, and being a total function it models
the handled `HTTPException`, not a process crash). -/
theorem upstream_failure_surfaced (df : List Payload) (getScores : String → List ℚ)
    (query : String) (top_k : Int) (e : String) (hq : query ≠ "") :
    search df getScores (.error e) query top_k
      = .error ⟨500, "Vector search failed: " ++ e⟩ := by
  simp [search, hq]

theorem upstream_failure_surfaced_witness :
    search [] (fun _ => []) (.error "boom") "x" 5
      = .error ⟨500, "Vector search failed: " ++ "boom"⟩ :=
  upstream_failure_surfaced [] (fun _ => []) "x" 5 "boom" (by decide)

/-! ## Lexical filtering (C4) -/

/-- C4 -- the lexical candidate list keeps only documents with a strictly
positive BM25 score (so a zero-overlap document never enters via the lexical
source), and it is empty when no document scores positively. -/
theorem bm25_excludes_nonpositive (df : List Payload) (scores : List ℚ)
    (top_k : Int) :
    (∀ r ∈ bm25Results df scores top_k, 0 < r.score)
    ∧ ((∀ i, scores.getD i 0 ≤ 0) → bm25Results df scores top_k = []) := by
  constructor
  · intro r hr
    unfold bm25Results at hr
    rw [List.mem_filterMap] at hr
    obtain ⟨idx, _, hidx⟩ := hr
    by_cases h : 0 < scores.getD idx 0
    · rw [if_pos h] at hidx
      injection hidx with h2
      subst h2
      exact h
    · rw [if_neg h] at hidx
      cases hidx
  · intro hall
    unfold bm25Results
    rw [List.filterMap_eq_nil_iff]
    intro idx _
    rw [if_neg (not_lt.mpr (hall idx))]

theorem bm25_excludes_nonpositive_witness :
    bm25Results [pA, pB] [0, -1] 2 = [] :=
  (bm25_excludes_nonpositive [pA, pB] [0, -1] 2).2 (fun i => by
    match i with
    | 0 => norm_num
    | 1 => norm_num
    | n + 2 => simp [List.getD])

/-! ## Empty and sentinel outcomes (C7, C10) -/

/-- C7 -- when both sources are empty (the collaborator returns no hits and
the lexical stage keeps no document), the fused result is empty and the
endpoint returns the distinct sentinel message, not an error. -/
theorem empty_sources_sentinel (df : List Payload) (getScores : String → List ℚ)
    (query : String) (top_k : Int) (hq : query ≠ "")
    (hlex : bm25Results df (getScores query) top_k = []) :
    search df getScores (.ok []) query top_k
      = .ok (.message "No relevant results found.") := by
  simp [search, hq, hlex, rrfRank, processSource, finalResults, fusedSorted,
    fusedSortKeyed, List.enum, List.enumFrom, pySliceTo_nil]

theorem empty_sources_sentinel_witness :
    search [] (fun _ => []) (.ok []) "x" 1
      = .ok (.message "No relevant results found.") :=
  empty_sources_sentinel [] (fun _ => []) "x" 1 (by decide) (by rfl)

/-- C10 -- a non-empty query with `top_k = 0` is not rejected: the slice
`argsort()[-0:]` keeps every index (the whole corpus as candidates), while
the final `[:0]` truncation empties the output, so a successful semantic
call ends in the sentinel message rather than a validation error. -/
theorem topk_zero_sentinel (df : List Payload) (getScores : String → List ℚ)
    (semList : List Payload) (query : String) (hq : query ≠ "") :
    List.Perm (bm25TopIndices (getScores query) 0)
      (List.range (getScores query).length)
    ∧ search df getScores (.ok semList) query 0
        = .ok (.message "No relevant results found.") := by
  constructor
  · unfold bm25TopIndices pySliceFrom
    simp only [neg_zero, lt_irrefl, if_false, Int.toNat_zero, List.drop_zero]
    exact (List.reverse_perm _).trans (List.perm_insertionSort _ _)
  · simp [search, hq, finalResults, pySliceTo_zero]

theorem topk_zero_sentinel_witness :
    List.Perm (bm25TopIndices [(1 : ℚ)] 0) (List.range 1)
    ∧ search [pA] (fun _ => [(1 : ℚ)]) (.ok [pB]) "x" 0
        = .ok (.message "No relevant results found.") :=
  topk_zero_sentinel [pA] (fun _ => [(1 : ℚ)]) [pB] "x" (by decide)

/-! ## Lexical ordering (C3) -/

theorem argsortAsc_sorted (scores : List ℚ) :
    List.Sorted (ascRel scores) (argsortAsc scores) :=
  List.sorted_insertionSort (ascRel scores) (List.range scores.length)

theorem argsortAsc_perm (scores : List ℚ) :
    List.Perm (argsortAsc scores) (List.range scores.length) :=
  List.perm_insertionSort (ascRel scores) (List.range scores.length)

theorem argsortAsc_nodup (scores : List ℚ) : (argsortAsc scores).Nodup :=
  (argsortAsc_perm scores).nodup_iff.mpr (List.nodup_range _)

theorem argsortAsc_pairwise (scores : List ℚ) :
    (argsortAsc scores).Pairwise (fun i j =>
      scores.getD i 0 < scores.getD j 0
      ∨ (scores.getD i 0 = scores.getD j 0 ∧ i < j)) := by
  have hs : (argsortAsc scores).Pairwise (ascRel scores) := argsortAsc_sorted scores
  have hn : (argsortAsc scores).Pairwise (fun i j => i ≠ j) := argsortAsc_nodup scores
  refine (hs.and hn).imp ?_
  intro i j h
  obtain ⟨hij, hne⟩ := h
  rcases hij with h | ⟨he, hle⟩
  · exact Or.inl h
  · exact Or.inr ⟨he, lt_of_le_of_ne hle hne⟩

theorem pySliceFrom_sublist {α : Type} (l : List α) (k : Int) :
    List.Sublist (pySliceFrom l k) l := by
  unfold pySliceFrom
  split <;> exact List.drop_sublist _ _

theorem bm25TopIndices_pairwise (scores : List ℚ) (top_k : Int) :
    (bm25TopIndices scores top_k).Pairwise (fun i j =>
      scores.getD j 0 < scores.getD i 0
      ∨ (scores.getD i 0 = scores.getD j 0 ∧ j < i)) := by
  unfold bm25TopIndices
  rw [List.pairwise_reverse]
  refine (List.Pairwise.sublist (pySliceFrom_sublist _ _)
    (argsortAsc_pairwise scores)).imp ?_
  intro i j h
  rcases h with h | ⟨he, hlt⟩
  · exact Or.inl h
  · exact Or.inr ⟨he.symm, hlt⟩

/-- C3 counterexample -- on two equally scored documents the code emits them
in reverse corpus order `[B, A]` (it reverses an ascending argsort), while
the spec's stable insertion-order TopK yields `[A, B]`. -/
theorem lexical_tie_counterexample :
    bm25Results [pA, pB] [1, 1] 2 = [⟨1, pB⟩, ⟨1, pA⟩]
    ∧ lexTopKSpec [pA, pB] [1, 1] 2 = [⟨1, pA⟩, ⟨1, pB⟩]
    ∧ bm25Results [pA, pB] [1, 1] 2 ≠ lexTopKSpec [pA, pB] [1, 1] 2 :=
  ⟨by decide, by decide, by decide⟩

/-- C3 (amended) -- the lexical TopK sorts documents by descending lexical
score but breaks ties between equally scored documents by reverse corpus
insertion order (under the stable-argsort model of `numpy.argsort`; numpy's
default unstable sort gives no insertion-order guarantee either), before
truncating to k; consequently the emitted candidate scores are
non-increasing. -/
theorem lexical_topk_sorted (df : List Payload) (scores : List ℚ)
    (top_k : Int) :
    (bm25TopIndices scores top_k).Pairwise (fun i j =>
      scores.getD j 0 < scores.getD i 0
      ∨ (scores.getD i 0 = scores.getD j 0 ∧ j < i))
    ∧ (bm25Results df scores top_k).Pairwise (fun a b => b.score ≤ a.score) := by
  refine ⟨bm25TopIndices_pairwise scores top_k, ?_⟩
  unfold bm25Results
  refine List.Pairwise.filterMap _ ?_ (bm25TopIndices_pairwise scores top_k)
  intro i j hij a ha b hb
  simp only [Option.mem_def] at ha hb
  by_cases hi : 0 < scores.getD i 0
  · rw [if_pos hi] at ha
    injection ha with ha
    by_cases hj : 0 < scores.getD j 0
    · rw [if_pos hj] at hb
      injection hb with hb
      subst ha
      subst hb
      rcases hij with h | ⟨he, _⟩
      · exact le_of_lt h
      · exact le_of_eq he.symm
    · rw [if_neg hj] at hb
      cases hb
  · rw [if_neg hi] at ha
    cases ha

/-! ## Fused ordering (C5) -/

theorem fusedSortKeyed_sorted (acc : List RankedEntry) :
    List.Sorted descRel (fusedSortKeyed acc) :=
  List.sorted_insertionSort descRel acc.enum

theorem fusedSortKeyed_perm (acc : List RankedEntry) :
    List.Perm (fusedSortKeyed acc) acc.enum :=
  List.perm_insertionSort descRel acc.enum

theorem fusedSorted_perm (acc : List RankedEntry) :
    List.Perm (fusedSorted acc) acc := by
  have h := (fusedSortKeyed_perm acc).map Prod.snd
  rwa [List.enum_map_snd] at h

theorem fusedSortKeyed_nodup_fst (acc : List RankedEntry) :
    ((fusedSortKeyed acc).map Prod.fst).Nodup := by
  have h := (fusedSortKeyed_perm acc).map Prod.fst
  refine h.nodup_iff.mpr ?_
  rw [List.enum_map_fst]
  exact List.nodup_range _

theorem fusedSortKeyed_pairwise (acc : List RankedEntry) :
    (fusedSortKeyed acc).Pairwise (fun a b =>
      b.2.score < a.2.score ∨ (a.2.score = b.2.score ∧ a.1 < b.1)) := by
  have hs : (fusedSortKeyed acc).Pairwise descRel := fusedSortKeyed_sorted acc
  have hn : (fusedSortKeyed acc).Pairwise (fun a b => a.1 ≠ b.1) :=
    List.pairwise_map.mp (fusedSortKeyed_nodup_fst acc)
  refine (hs.and hn).imp ?_
  intro a b h
  obtain ⟨hab, hne⟩ := h
  rcases hab with h | ⟨he, hle⟩
  · exact Or.inl h
  · exact Or.inr ⟨he, lt_of_le_of_ne hle hne⟩

theorem fusedSorted_pairwise (acc : List RankedEntry) :
    (fusedSorted acc).Pairwise (fun a b => b.score ≤ a.score) := by
  unfold fusedSorted
  rw [List.pairwise_map]
  refine (fusedSortKeyed_pairwise acc).imp ?_
  intro a b h
  rcases h with h | ⟨he, _⟩
  · exact le_of_lt h
  · exact le_of_eq he.symm

/-- C5 -- the fused output is sorted by strictly descending combined score
with ties broken by the position at which the document was first inserted
into the accumulator (the `Prod.fst` tag of `fusedSortKeyed` is that
insertion position); consequently along the emitted order the scores are
non-increasing, so a strictly higher-scored document always appears
earlier. -/
theorem fused_sort_order (acc : List RankedEntry) :
    (fusedSortKeyed acc).Pairwise (fun a b =>
      b.2.score < a.2.score ∨ (a.2.score = b.2.score ∧ a.1 < b.1))
    ∧ (fusedSorted acc).Pairwise (fun a b => b.score ≤ a.score) :=
  ⟨fusedSortKeyed_pairwise acc, fusedSorted_pairwise acc⟩

/-! ## Truncation and positivity (C6) -/

theorem bumpScore_pos : ∀ (acc : List RankedEntry) (d : String) (p : Payload)
    (w : ℚ), 0 < w → (∀ e ∈ acc, 0 < e.score) →
    ∀ e ∈ bumpScore acc d p w, 0 < e.score
  | [], d, p, w, hw, _, e, he => by
    simp [bumpScore] at he
    subst he
    exact hw
  | a :: rest, d, p, w, hw, hacc, e, he => by
    simp only [bumpScore] at he
    by_cases h : a.docId = d
    · rw [if_pos h] at he
      rcases List.mem_cons.mp he with rfl | hmem
      · exact add_pos (hacc a (List.mem_cons_self a rest)) hw
      · exact hacc e (List.mem_cons_of_mem a hmem)
    · rw [if_neg h] at he
      rcases List.mem_cons.mp he with rfl | hmem
      · exact hacc _ (List.mem_cons_self _ _)
      · exact bumpScore_pos rest d p w hw
          (fun x hx => hacc x (List.mem_cons_of_mem a hx)) e hmem

theorem foldl_bump_pos (w : ℚ) (hw : 0 < w) :
    ∀ (l : List (Nat × Payload)) (acc : List RankedEntry),
      (∀ e ∈ acc, 0 < e.score) →
      ∀ e ∈ l.foldl
          (fun a ip => bumpScore a ip.2.id ip.2 (w / ((ip.1 : ℚ) + 1))) acc,
        0 < e.score
  | [], acc, hacc => by simpa using hacc
  | ip :: l, acc, hacc => by
    simp only [List.foldl_cons]
    refine foldl_bump_pos w hw l _ ?_
    refine bumpScore_pos acc ip.2.id ip.2 _ ?_ hacc
    have hpos : (0 : ℚ) < (ip.1 : ℚ) + 1 := by positivity
    exact div_pos hw hpos

theorem processSource_pos (w : ℚ) (hw : 0 < w) (cands : List Payload)
    (acc : List RankedEntry) (hacc : ∀ e ∈ acc, 0 < e.score) :
    ∀ e ∈ processSource w cands acc, 0 < e.score :=
  foldl_bump_pos w hw cands.enum acc hacc

theorem rrfRank_pos (vec lex : List Payload) :
    ∀ e ∈ rrfRank vec lex, 0 < e.score := by
  refine processSource_pos (1/2) (by norm_num) lex _ ?_
  refine processSource_pos 1 one_pos vec [] ?_
  intro e he
  cases he

theorem fusedSorted_length (acc : List RankedEntry) :
    (fusedSorted acc).length = acc.length :=
  (fusedSorted_perm acc).length_eq

/-- C6 -- for `top_k ≥ 1` the fused output has at most `top_k` payloads;
every accumulated document has strictly positive (hence nonzero) combined
score; the output has exactly `top_k` payloads whenever the accumulator
holds at least `top_k` documents; and every retained entry scores at least
every truncated-away entry, so the kept ones are the `top_k`
highest-scored. -/
theorem fused_topk_truncation (vec lex : List Payload) (top_k : Int)
    (h1 : 1 ≤ top_k) :
    (finalResults (rrfRank vec lex) top_k).length ≤ top_k.toNat
    ∧ (∀ e ∈ rrfRank vec lex, 0 < e.score)
    ∧ (top_k.toNat ≤ (rrfRank vec lex).length →
        (finalResults (rrfRank vec lex) top_k).length = top_k.toNat)
    ∧ (∀ a ∈ pySliceTo (fusedSorted (rrfRank vec lex)) top_k,
        ∀ b ∈ (fusedSorted (rrfRank vec lex)).drop top_k.toNat,
          b.score ≤ a.score) := by
  have h0 : (0 : Int) ≤ top_k := le_trans (by norm_num) h1
  have hslice : pySliceTo (fusedSorted (rrfRank vec lex)) top_k
      = (fusedSorted (rrfRank vec lex)).take top_k.toNat :=
    pySliceTo_of_nonneg _ _ h0
  refine ⟨?_, rrfRank_pos vec lex, ?_, ?_⟩
  · unfold finalResults
    rw [hslice, List.length_map, List.length_take]
    exact min_le_left _ _
  · intro hlen
    unfold finalResults
    rw [hslice, List.length_map, List.length_take, fusedSorted_length]
    exact min_eq_left hlen
  · intro a ha b hb
    have hp := fusedSorted_pairwise (rrfRank vec lex)
    rw [← List.take_append_drop top_k.toNat (fusedSorted (rrfRank vec lex))]
      at hp
    rw [hslice] at ha
    exact (List.pairwise_append.mp hp).2.2 a ha b hb

theorem fused_topk_truncation_witness :
    (finalResults (rrfRank [pA, pB] []) 1).length = 1 :=
  (fused_topk_truncation [pA, pB] [] 1 (by norm_num)).2.2.1 (by
    simp +decide [rrfRank, processSource, bumpScore, List.enum, List.enumFrom,
      pA, pB])

/-! ## Key uniqueness and payload retention (C9) -/

theorem accPayload_bumpScore (acc : List RankedEntry) (d' : String)
    (p : Payload) (w : ℚ) (d : String) :
    accPayload (bumpScore acc d' p w) d
      = match accPayload acc d with
        | some q => some q
        | none => if d' = d then some p else none := by
  induction acc with
  | nil => by_cases h : d' = d <;> simp [h, bumpScore, accPayload]
  | cons e rest ih =>
    simp only [bumpScore]
    by_cases he : e.docId = d'
    · rw [if_pos he]
      by_cases hd : e.docId = d
      · simp [accPayload, hd]
      · simp only [accPayload, if_neg hd]
        have hdd : ¬ d' = d := fun hh => hd (he.trans hh)
        cases hq : accPayload rest d <;> simp [hq, hdd]
    · rw [if_neg he]
      by_cases hd : e.docId = d
      · simp [accPayload, hd]
      · simp only [accPayload, if_neg hd]
        exact ih

theorem accPayload_foldl (w : ℚ) (d : String) :
    ∀ (l : List (Nat × Payload)) (acc : List RankedEntry),
      accPayload (l.foldl
          (fun a ip => bumpScore a ip.2.id ip.2 (w / ((ip.1 : ℚ) + 1))) acc) d
        = match accPayload acc d with
          | some q => some q
          | none => (l.find? (fun ip => ip.2.id == d)).map Prod.snd
  | [], acc => by cases hq : accPayload acc d <;> simp [hq]
  | ip :: l, acc => by
    simp only [List.foldl_cons]
    rw [accPayload_foldl w d l, accPayload_bumpScore]
    by_cases h : ip.2.id = d
    · cases hq : accPayload acc d <;> simp [hq, h]
    · cases hq : accPayload acc d <;> simp [hq, h]

theorem find?_enumFrom (d : String) :
    ∀ (cands : List Payload) (n : Nat),
      ((cands.enumFrom n).find? (fun ip => ip.2.id == d)).map Prod.snd
        = cands.find? (fun p => p.id == d)
  | [], n => by simp
  | c :: l, n => by
    by_cases h : c.id = d
    · simp [List.enumFrom_cons, h]
    · simp [List.enumFrom_cons, h, find?_enumFrom d l (n + 1)]

theorem accPayload_processSource (w : ℚ) (cands : List Payload)
    (acc : List RankedEntry) (d : String) :
    accPayload (processSource w cands acc) d
      = match accPayload acc d with
        | some q => some q
        | none => cands.find? (fun p => p.id == d) := by
  unfold processSource
  rw [accPayload_foldl]
  cases hq : accPayload acc d <;> simp [hq, List.enum, find?_enumFrom]

theorem keys_bumpScore (acc : List RankedEntry) (d : String) (p : Payload)
    (w : ℚ) :
    (bumpScore acc d p w).map RankedEntry.docId
      = if d ∈ acc.map RankedEntry.docId then acc.map RankedEntry.docId
        else acc.map RankedEntry.docId ++ [d] := by
  induction acc with
  | nil => simp [bumpScore]
  | cons e rest ih =>
    simp only [bumpScore]
    by_cases he : e.docId = d
    · rw [if_pos he]
      simp [he.symm]
    · rw [if_neg he]
      have he' : ¬ d = e.docId := fun hh => he hh.symm
      by_cases hm : d ∈ rest.map RankedEntry.docId
      · simp [ih, hm, he']
      · simp [ih, hm, he']

theorem keys_nodup_bumpScore (acc : List RankedEntry) (d : String)
    (p : Payload) (w : ℚ) (hn : (acc.map RankedEntry.docId).Nodup) :
    ((bumpScore acc d p w).map RankedEntry.docId).Nodup := by
  rw [keys_bumpScore]
  by_cases hm : d ∈ acc.map RankedEntry.docId
  · rwa [if_pos hm]
  · rw [if_neg hm]
    simp [List.nodup_append, hn, hm]

theorem keys_nodup_foldl (w : ℚ) :
    ∀ (l : List (Nat × Payload)) (acc : List RankedEntry),
      (acc.map RankedEntry.docId).Nodup →
      ((l.foldl (fun a ip => bumpScore a ip.2.id ip.2 (w / ((ip.1 : ℚ) + 1)))
          acc).map RankedEntry.docId).Nodup
  | [], _, hn => hn
  | ip :: l, acc, hn => by
    simp only [List.foldl_cons]
    exact keys_nodup_foldl w l _ (keys_nodup_bumpScore acc ip.2.id ip.2 _ hn)

theorem rrfRank_keys_nodup (vec lex : List Payload) :
    ((rrfRank vec lex).map RankedEntry.docId).Nodup :=
  keys_nodup_foldl (1/2) lex.enum _ (keys_nodup_foldl 1 vec.enum [] (by simp))

theorem payloadId_bumpScore : ∀ (acc : List RankedEntry) (d : String)
    (p : Payload) (w : ℚ), p.id = d →
    (∀ e ∈ acc, e.payload.id = e.docId) →
    ∀ e ∈ bumpScore acc d p w, e.payload.id = e.docId
  | [], d, p, w, hp, _, e, he => by
    simp [bumpScore] at he
    subst he
    exact hp
  | a :: rest, d, p, w, hp, hacc, e, he => by
    simp only [bumpScore] at he
    by_cases h : a.docId = d
    · rw [if_pos h] at he
      rcases List.mem_cons.mp he with rfl | hmem
      · exact hacc a (List.mem_cons_self a rest)
      · exact hacc e (List.mem_cons_of_mem a hmem)
    · rw [if_neg h] at he
      rcases List.mem_cons.mp he with rfl | hmem
      · exact hacc _ (List.mem_cons_self _ _)
      · exact payloadId_bumpScore rest d p w hp
          (fun x hx => hacc x (List.mem_cons_of_mem a hx)) e hmem

theorem payloadId_foldl (w : ℚ) :
    ∀ (l : List (Nat × Payload)) (acc : List RankedEntry),
      (∀ e ∈ acc, e.payload.id = e.docId) →
      ∀ e ∈ l.foldl
          (fun a ip => bumpScore a ip.2.id ip.2 (w / ((ip.1 : ℚ) + 1))) acc,
        e.payload.id = e.docId
  | [], _, hacc => hacc
  | ip :: l, acc, hacc => by
    simp only [List.foldl_cons]
    exact payloadId_foldl w l _ (payloadId_bumpScore acc ip.2.id ip.2 _ rfl hacc)

theorem rrfRank_payloadId (vec lex : List Payload) :
    ∀ e ∈ rrfRank vec lex, e.payload.id = e.docId :=
  payloadId_foldl (1/2) lex.enum _
    (payloadId_foldl 1 vec.enum [] (fun e he => absurd he (List.not_mem_nil e)))

theorem pySliceTo_sublist {α : Type} (l : List α) (k : Int) :
    List.Sublist (pySliceTo l k) l := by
  unfold pySliceTo
  split <;> exact List.take_sublist _ _

/-- C9 -- the accumulator is keyed by document id: its keys are pairwise
distinct, so the final output holds at most one payload per id for any
`top_k`; and the entry for id `d` retains the payload of the first
candidate with that id in processing order (semantic list then lexical
list) — the semantic payload whenever the document occurs in both
sources. -/
theorem rrf_unique_ids (vec lex : List Payload) :
    ((rrfRank vec lex).map RankedEntry.docId).Nodup
    ∧ (∀ d, accPayload (rrfRank vec lex) d
        = (vec ++ lex).find? (fun p => p.id == d))
    ∧ ∀ top_k : Int,
        ((finalResults (rrfRank vec lex) top_k).map Payload.id).Nodup := by
  refine ⟨rrfRank_keys_nodup vec lex, ?_, ?_⟩
  · intro d
    unfold rrfRank
    rw [accPayload_processSource, accPayload_processSource, List.find?_append]
    cases hv : vec.find? (fun p => p.id == d) <;> simp [accPayload, hv]
  · intro top_k
    have hperm :
        List.Perm ((fusedSorted (rrfRank vec lex)).map (fun e => e.payload.id))
          ((rrfRank vec lex).map (fun e => e.payload.id)) :=
      (fusedSorted_perm _).map _
    have hids : ((rrfRank vec lex).map (fun e => e.payload.id))
        = (rrfRank vec lex).map RankedEntry.docId :=
      List.map_congr_left (fun e he => rrfRank_payloadId vec lex e he)
    have hnodup :
        ((fusedSorted (rrfRank vec lex)).map (fun e => e.payload.id)).Nodup :=
      hperm.nodup_iff.mpr (hids ▸ rrfRank_keys_nodup vec lex)
    unfold finalResults
    rw [List.map_map]
    exact List.Nodup.sublist ((pySliceTo_sublist _ _).map _) hnodup

end FounderRag
